import Mathlib

/-!
Verification of the name-resolution engine of merge_sprinkler_data.py
(playgroundRoulette repository).

The Python program is shallowly embedded over lists of characters:
Python strings become the type Str (List Char), Python floats used for
similarity scores become exact rationals, and the per-record matching
step of the orchestration (main, lines 142-186) becomes a pure function
from a query name and a candidate pool to an enriched record together
with a tag recording which matching path produced it.

Character-level primitives (str.lower, str.strip, the regex classes \w
and \s) are modelled on the ASCII range, which covers every string
appearing in the data sets and claims; Python additionally handles
non-ASCII Unicode in these primitives, which no claim here exercises.
-/

namespace MergeSprinkler

/-- Python strings, modelled as lists of characters. -/
abbrev Str := List Char

/-- Python whitespace test (the class \s and str.strip): space, tab,
newline, carriage return, vertical tab, form feed. -/
def isSpace (c : Char) : Bool :=
  c.toNat = 32 || c.toNat = 9 || c.toNat = 10 || c.toNat = 13 || c.toNat = 11 || c.toNat = 12

/-- Membership in the regex class \w (ASCII): letters, digits, underscore. -/
def wordChar (c : Char) : Bool :=
  (97 ≤ c.toNat && c.toNat ≤ 122) || (65 ≤ c.toNat && c.toNat ≤ 90) ||
    (48 ≤ c.toNat && c.toNat ≤ 57) || c.toNat = 95

/-- Lower-casing of one character (str.lower on the ASCII range). -/
def lowerChar (c : Char) : Char :=
  if 65 ≤ c.toNat ∧ c.toNat ≤ 90 then Char.ofNat (c.toNat + 32) else c

/-- Python str.lower. -/
def lower (s : Str) : Str := s.map lowerChar

/-- Python str.strip: remove whitespace from both ends. -/
def strip (s : Str) : Str :=
  ((s.dropWhile isSpace).reverse.dropWhile isSpace).reverse

/-- The fixed ordered suffix list of normalize_name
(merge_sprinkler_data.py lines 21-24). -/
def suffixes_to_remove : List Str :=
  [" playground".toList, " plgd".toList, " park playground".toList, " park".toList,
   " tot lot".toList, " playgrnd".toList, " plgrnd".toList]

/-- One iteration of the suffix-stripping loop (lines 26-28): if the
current string ends with the given suffix, cut it off and strip
whitespace, otherwise leave the string unchanged. -/
def stripOne (s suf : Str) : Str :=
  if suf <:+ s then strip (s.take (s.length - suf.length)) else s

/-- The whole suffix-stripping loop: the list is walked once in order,
each entry firing at most once on the current string. -/
def stripSuffixes (s : Str) : Str := suffixes_to_remove.foldl stripOne s

/-- Python re.sub applied with pattern [^\w\s] and replacement
a single space (line 31). -/
def punctToSpace (s : Str) : Str :=
  s.map (fun c => if wordChar c || isSpace c then c else ' ')

/-- Worker for collapseWs; the flag records whether the previous
character belonged to a whitespace run already emitted as one space. -/
def collapseWsAux : Bool → Str → Str
  | _, [] => []
  | prevSpace, c :: rest =>
    if isSpace c then
      if prevSpace then collapseWsAux true rest
      else ' ' :: collapseWsAux true rest
    else c :: collapseWsAux false rest

/-- Python re.sub applied with pattern \s+ and replacement a single
space (line 32): every maximal whitespace run becomes one space. -/
def collapseWs (s : Str) : Str := collapseWsAux false s

/-- The final stage of normalize_name (lines 31-32): punctuation to
spaces, whitespace runs collapsed, ends trimmed. -/
def cleanupStage (s : Str) : Str := strip (collapseWs (punctToSpace s))

/-- normalize_name (merge_sprinkler_data.py lines 12-34). -/
def normalize_name (name : Str) : Str :=
  if name = [] then []
  else cleanupStage (stripSuffixes (strip (lower name)))

/-- Worker for splitWords, accumulating the current word reversed. -/
def splitWordsAux : Str → Str → List Str
  | [], cur => if cur = [] then [] else [cur.reverse]
  | c :: rest, cur =>
    if isSpace c then
      if cur = [] then splitWordsAux rest []
      else cur.reverse :: splitWordsAux rest []
    else splitWordsAux rest (c :: cur)

/-- Python str.split with no argument: whitespace-delimited tokens, no
empty tokens. -/
def splitWords (s : Str) : List Str := splitWordsAux s []

/-- Size of the intersection of two Python sets of words:
the number of distinct words of the first list also present in the
second (set(w1) & set(w2) in lines 49-53 and 76-78). -/
def interCount (w1 w2 : List Str) : Nat :=
  (w1.dedup.filter (fun w => decide (w ∈ w2))).length

/-- Lookup in the j2len dictionary of SequenceMatcher.find_longest_match,
with 0 as default for absent keys. -/
def j2get (m : List (Nat × Nat)) (j : Nat) : Nat :=
  match m.find? (fun p => decide (p.1 = j)) with
  | some p => p.2
  | none => 0

/-- The positions j in the range blo ≤ j < bhi at which b carries the
character ch, in increasing order (the b2j lists of difflib restricted
to the window, autojunk being inert on the short strings scored here). -/
def flmJs (b : Str) (blo bhi : Nat) (ch : Char) : List Nat :=
  (List.range bhi).filter (fun j => decide (blo ≤ j) && decide (b.getD j ' ' = ch))

/-- difflib SequenceMatcher.find_longest_match on the windows
a[alo:ahi], b[blo:bhi], with no junk: the dynamic program over run
lengths, keeping the first (lowest i, then lowest j) strictly longest
block. With no junk the subsequent extension loops of difflib cannot
fire, because a block extendable by an equal neighbouring character
would contradict the maximality of the block found here. -/
def findLongestMatch (a b : Str) (alo ahi blo bhi : Nat) : Nat × Nat × Nat :=
  (((List.range ahi).filter (fun i => decide (alo ≤ i))).foldl
    (fun acc i =>
      let js := flmJs b blo bhi (a.getD i ' ')
      js.foldl (fun acc2 j =>
        let k := if j = 0 then 1 else j2get acc.1 (j - 1) + 1
        if k > acc2.2.2.2 then ((j, k) :: acc2.1, (i + 1 - k, j + 1 - k, k))
        else ((j, k) :: acc2.1, acc2.2))
        (([] : List (Nat × Nat)), acc.2))
    (([] : List (Nat × Nat)), (alo, blo, 0))).2

/-- Total size of the matching blocks of SequenceMatcher
(get_matching_blocks): the longest block of the window plus,
recursively, the blocks to its left and to its right. The fuel argument
only bounds the recursion depth; the depth of the block recursion is at
most the sum of the window widths, so the fuel chosen in matchesTot is
never exhausted. -/
def matchesAux (a b : Str) : Nat → Nat → Nat → Nat → Nat → Nat
  | 0, _, _, _, _ => 0
  | fuel + 1, alo, ahi, blo, bhi =>
    let r := findLongestMatch a b alo ahi blo bhi
    if r.2.2 = 0 then 0
    else r.2.2 + matchesAux a b fuel alo r.1 blo r.2.1 +
      matchesAux a b fuel (r.1 + r.2.2) ahi (r.2.1 + r.2.2) bhi

/-- Total number of matching characters between a and b. -/
def matchesTot (a b : Str) : Nat :=
  matchesAux a b (a.length + b.length + 1) 0 a.length 0 b.length

/-- difflib SequenceMatcher.ratio as an exact rational:
2*M / (len(a)+len(b)), and 1 when both strings are empty. -/
def ratioVal (a b : Str) : ℚ :=
  if a.length + b.length = 0 then 1
  else (2 * (matchesTot a b : ℚ)) / ((a.length : ℚ) + (b.length : ℚ))

/-- similarity_score (merge_sprinkler_data.py lines 36-57). -/
def similarity_score (name1 name2 : Str) : ℚ :=
  let norm1 := normalize_name name1
  let norm2 := normalize_name name2
  if norm1 = [] ∨ norm2 = [] then 0
  else if norm1 = norm2 then 1
  else if interCount (splitWords norm1) (splitWords norm2) = 0 then 0
  else ratioVal norm1 norm2

/-- Body of the fuzzy-matching loop of find_best_match
(merge_sprinkler_data.py lines 72-83), acting on the running
(best_match, best_score) accumulator. -/
def fuzzyStep (q : Str) (t : ℚ) (acc : Option Str × ℚ) (c : Str) : Option Str × ℚ :=
  let score := similarity_score q c
  if score > acc.2 ∧ score ≥ t then
    if 2 ≤ interCount (splitWords (normalize_name q)) (splitWords (normalize_name c)) ∨
        score > 99 / 100 then
      (some c, score)
    else acc
  else acc

/-- Test applied by the exact pass of find_best_match to each
candidate (lines 66-68): the normalized candidate equals the
normalized query. -/
def exactPred (q : Str) : Str → Bool :=
  fun s => decide (normalize_name s = normalize_name q)

/-- find_best_match (merge_sprinkler_data.py lines 59-85): the exact
pass over normalized names short-circuits with score 1; otherwise the
fuzzy loop runs over the whole pool from (None, 0.0). The Python
default threshold is 0.98; every caller of this model passes the
threshold explicitly, as the orchestration call site does. -/
def find_best_match (q : Str) (pool : List Str) (t : ℚ) : Option Str × ℚ :=
  match pool.find? (exactPred q) with
  | some s => (some s, 1)
  | none => pool.foldl (fuzzyStep q t) (none, 0)

/-- Auxiliary attributes carried by one sprinkler record
(main, lines 127-132). -/
structure SprinklerInfo where
  status : Str
  system : Str
  district : Str
  featuretype : Str
deriving DecidableEq

/-- One record of the secondary data set (sprinklers.json), as read by
main lines 122-132. -/
structure SecondaryRecord where
  subpropertyname : Str
  status : Str
  system : Str
  district : Str
  featuretype : Str
deriving DecidableEq

/-- The four attributes main appends to a primary record
(lines 149-152 and 167-182). The untouched original fields of the
record pass through unchanged and are not modelled. -/
structure Enriched where
  has_sprinkler : Bool
  sprinkler_status : Option Str
  sprinkler_system : Option Str
  sprinkler_district : Option Str
deriving DecidableEq

/-- Which branch of the per-record orchestration produced the result:
the raw exact comparison (lines 158-172), the fuzzy branch calling
find_best_match (lines 173-184), or no match at all. -/
inductive MatchPath where
  | noMatch : MatchPath
  | exactPath : MatchPath
  | fuzzyPath : MatchPath
deriving DecidableEq

/-- The candidate pool built by main lines 119-132: stripped
subpropertyname keys paired with their auxiliary attributes, records
with an empty stripped name discarded. Python collects the names into
a set and the attributes into a dict; the iteration order of that set
is unspecified, so the pool is modelled as a list in record order
(the specification treats order among tied candidates as
unspecified). -/
def buildPool (recs : List SecondaryRecord) : List (Str × SprinklerInfo) :=
  recs.foldr
    (fun r acc =>
      let n := strip r.subpropertyname
      if n = [] then acc
      else (n, ⟨r.status, r.system, r.district, r.featuretype⟩) :: acc)
    []

/-- Lookup of the auxiliary attributes of a matched candidate name
(sprinkler_lookup in main). The dict assignment of line 127 overwrites
on duplicate keys, so on a duplicated stripped name the attributes of
the last record win; the lookup therefore scans the pool from the
back. -/
def lookupInfo (pool : List (Str × SprinklerInfo)) (n : Str) : Option SprinklerInfo :=
  (pool.reverse.find? (fun p => decide (p.1 = n))).map Prod.snd

/-- The enriched attributes before any match is found
(main lines 149-152). -/
def blankEnriched : Enriched := ⟨false, none, none, none⟩

/-- Per-record matching step of main (lines 142-186): strip the Name
field; an empty name keeps the blank attributes; otherwise a raw
case-insensitive exact comparison against the pool wins first, and
failing that find_best_match is called with threshold 0.8 (line 175).
The lookup of the fuzzy winner cannot miss, since find_best_match only
returns names drawn from the pool; the none fallback of lookupInfo is
therefore unreachable there. -/
def processRecord (rawName : Str) (pool : List (Str × SprinklerInfo)) : Enriched × MatchPath :=
  let name := strip rawName
  if name = [] then (blankEnriched, MatchPath.noMatch)
  else
    match pool.find? (fun p => decide (strip (lower name) = strip (lower p.1))) with
    | some p =>
      (⟨true, some p.2.status, some p.2.system, some p.2.district⟩, MatchPath.exactPath)
    | none =>
      match find_best_match name (pool.map Prod.fst) (8 / 10) with
      | (some m, _) =>
        match lookupInfo pool m with
        | some info =>
          (⟨true, some info.status, some info.system, some info.district⟩, MatchPath.fuzzyPath)
        | none => (blankEnriched, MatchPath.noMatch)
      | (none, _) => (blankEnriched, MatchPath.noMatch)

/-! ## General lemmas about the matcher -/

/-- When some candidate passes the exact test, find_best_match returns
the first such candidate with score 1, and the fuzzy loop contributes
nothing to the result. -/
theorem find_best_match_exact (q : Str) (pool : List Str) (t : ℚ)
    (h : (pool.find? (exactPred q)).isSome = true) :
    find_best_match q pool t = (pool.find? (exactPred q), 1) := by
  obtain ⟨s, hs⟩ := Option.isSome_iff_exists.mp h
  unfold find_best_match
  rw [hs]

/-- The body of the fuzzy loop updates the accumulator exactly when the
candidate score beats the running best, reaches the threshold, and
passes the shared-word/very-high-score guard. -/
theorem fuzzyStep_eq_ite (q c : Str) (t : ℚ) (acc : Option Str × ℚ) :
    fuzzyStep q t acc c =
      if similarity_score q c > acc.2 ∧ similarity_score q c ≥ t ∧
          (2 ≤ interCount (splitWords (normalize_name q)) (splitWords (normalize_name c)) ∨
            similarity_score q c > 99 / 100)
      then (some c, similarity_score q c) else acc := by
  simp only [fuzzyStep]
  split_ifs with h1 h2 h3 <;> first | rfl | tauto

/-! ## Claim C1 -/

/-- C1: for every query, pool and threshold, if the pool contains a
candidate whose normalized form equals the normalized query, then
find_best_match returns the first such candidate with score exactly 1,
the result being that of the exact pass alone; in particular it is the
same at every other threshold u, the fuzzy scoring pass never being
consulted. -/
theorem C1_exact_pass_precedence (q : Str) (pool : List Str) (t u : ℚ)
    (h : pool.any (exactPred q) = true) :
    find_best_match q pool t = (pool.find? (exactPred q), 1) ∧
    find_best_match q pool u = find_best_match q pool t := by
  have hs : (pool.find? (exactPred q)).isSome = true :=
    List.find?_isSome.mpr (List.any_eq_true.mp h)
  have h1 := find_best_match_exact q pool t hs
  have h2 := find_best_match_exact q pool u hs
  exact ⟨h1, h2.trans h1.symm⟩

/-- Witness for C1 at a concrete instance: the pool contains a
candidate normalizing like the query, and the matcher returns it with
score 1 at two different thresholds. -/
theorem C1_witness :
    (["a".toList].any (exactPred "A Park".toList) = true) ∧
    find_best_match "A Park".toList ["a".toList] (1/2) =
      (["a".toList].find? (exactPred "A Park".toList), 1) ∧
    find_best_match "A Park".toList ["a".toList] (1/3) =
      find_best_match "A Park".toList ["a".toList] (1/2) :=
  ⟨by decide, C1_exact_pass_precedence "A Park".toList ["a".toList] (1/2) (1/3) (by decide)⟩

/-! ## Claim C2 -/

/-- C2: in the fuzzy pass a candidate becomes the running best exactly
when its score strictly exceeds the current best, is at least the
threshold, and the two names share at least 2 normalized words or the
score exceeds 0.99; and the pair from the claim, query Fort Greene Park
against candidate Fort Greene Playground, is admitted by
find_best_match at every threshold (their normalized forms coincide, so
the admission happens with score 1). -/
theorem C2_fuzzy_acceptance (q c : Str) (t : ℚ) (acc : Option Str × ℚ) :
    fuzzyStep q t acc c =
      (if similarity_score q c > acc.2 ∧ similarity_score q c ≥ t ∧
          (2 ≤ interCount (splitWords (normalize_name q)) (splitWords (normalize_name c)) ∨
            similarity_score q c > 99 / 100)
        then (some c, similarity_score q c) else acc) ∧
    find_best_match "Fort Greene Park".toList ["Fort Greene Playground".toList] t =
      (some "Fort Greene Playground".toList, 1) :=
  ⟨fuzzyStep_eq_ite q c t acc, rfl⟩

/-! ## Claim C3 -/

/-- C3: similarity_score is 0 whenever the two non-empty, distinct
normalized names share no word; and the query Dan Ross Playground
against the sole candidate Diana Ross Park (which do share the word
ross, with character-level ratio 8/9) is rejected by find_best_match at
every threshold, by the shared-word guard when the threshold allows the
score and by the threshold otherwise. -/
theorem C3_zero_shared_words (a b : Str) (t : ℚ)
    (h1 : normalize_name a ≠ []) (h2 : normalize_name b ≠ [])
    (h3 : normalize_name a ≠ normalize_name b)
    (h4 : interCount (splitWords (normalize_name a)) (splitWords (normalize_name b)) = 0) :
    similarity_score a b = 0 ∧
    find_best_match "Dan Ross Playground".toList ["Diana Ross Park".toList] t = (none, 0) := by
  constructor
  · simp only [similarity_score]
    rw [if_neg (by tauto), if_neg h3, if_pos h4]
  · have hfind :
        (["Diana Ross Park".toList].find? (exactPred "Dan Ross Playground".toList)) = none := by
      decide
    have e1 : normalize_name "Dan Ross Playground".toList = "dan ross".toList := by decide
    have e2 : normalize_name "Diana Ross Park".toList = "diana ross".toList := by decide
    have hm : matchesTot "dan ross".toList "diana ross".toList = 8 := by decide
    have l1 : ("dan ross".toList).length = 8 := by decide
    have l2 : ("diana ross".toList).length = 10 := by decide
    have hrat : ratioVal "dan ross".toList "diana ross".toList = 8/9 := by
      unfold ratioVal
      rw [l1, l2, hm]
      norm_num
    have hsc :
        similarity_score "Dan Ross Playground".toList "Diana Ross Park".toList = 8/9 := by
      simp only [similarity_score, e1, e2]
      rw [if_neg (by decide), if_neg (by decide), if_neg (by decide)]
      exact hrat
    have hshared :
        interCount (splitWords (normalize_name "Dan Ross Playground".toList))
          (splitWords (normalize_name "Diana Ross Park".toList)) = 1 := by decide
    unfold find_best_match
    rw [hfind]
    simp only [List.foldl_cons, List.foldl_nil]
    rw [fuzzyStep_eq_ite, hsc, hshared]
    rw [if_neg]
    rintro ⟨-, -, h | h⟩
    · exact absurd h (by norm_num)
    · exact absurd h (by norm_num)

/-- Witness for C3 at a concrete instance: dan and diana share no
normalized word and score 0, and the Dan Ross query finds no match at
threshold 0.8. -/
theorem C3_witness :
    (normalize_name "dan".toList ≠ [] ∧ normalize_name "diana".toList ≠ [] ∧
      normalize_name "dan".toList ≠ normalize_name "diana".toList ∧
      interCount (splitWords (normalize_name "dan".toList))
        (splitWords (normalize_name "diana".toList)) = 0) ∧
    similarity_score "dan".toList "diana".toList = 0 ∧
    find_best_match "Dan Ross Playground".toList ["Diana Ross Park".toList] (8/10) =
      (none, 0) :=
  ⟨⟨by decide, by decide, by decide, by decide⟩,
    C3_zero_shared_words "dan".toList "diana".toList (8/10)
      (by decide) (by decide) (by decide) (by decide)⟩

/-! ## Claim C4, counterexample part -/

/-- C4 fails on the code: normalize_name is not idempotent. On the
input a-playground the first pass turns the hyphen into a space after
the suffix scan, yielding a playground, and a second pass then strips
the now-exposed playground suffix. -/
theorem C4_counterexample :
    normalize_name (normalize_name "a-playground".toList) ≠
      normalize_name "a-playground".toList := by decide

/-! ## Claim C5, counterexample part -/

/-- C5 fails on the code: the result on x park plgd cannot be obtained
by stripping at most one entry of the suffix list, because the loop
strips plgd and then also park in the same call. -/
theorem C5_counterexample :
    ¬ (normalize_name "x park plgd".toList =
          cleanupStage (strip (lower "x park plgd".toList)) ∨
        ∃ suf ∈ suffixes_to_remove,
          normalize_name "x park plgd".toList =
            cleanupStage (stripOne (strip (lower "x park plgd".toList)) suf)) := by
  decide

/-! ## Claim C6 -/

/-- C6 fails on the code: the punctuation stage replaces each
punctuation character by a space rather than deleting it, so the
apostrophe inside the name St Marys Park, written with period and
apostrophe, leaves a detached s. -/
theorem C6_counterexample :
    normalize_name ("St. Mary".toList ++ [Char.ofNat 39] ++ "s Park".toList) ≠
      normalize_name "St Marys Park".toList := by decide

/-- C6 amended: punctuation becomes a space, so punctuation adjacent to
existing whitespace is invariant (St. Mary Park matches St Mary Park),
while the apostrophe variant of the name normalizes to st mary s and
normalizes to st marys. -/
theorem C6_amended :
    normalize_name "St. Mary Park".toList = normalize_name "St Mary Park".toList ∧
    normalize_name ("St. Mary".toList ++ [Char.ofNat 39] ++ "s Park".toList) =
      "st mary s".toList ∧
    normalize_name "St Marys Park".toList = "st marys".toList := by decide

/-! ## Claim C8 -/

/-- C8: the primary record named Asser Levy Playground, against the
pool built from the single secondary record with subpropertyname
Asser Levy Park and status Active (its other attributes absent, hence
read as empty strings), comes out with has_sprinkler true and
sprinkler_status Active, via the fuzzy branch of the orchestration:
the raw exact comparison of main fails, and the find_best_match call
with threshold 0.8 succeeds (through its normalized-exact pass, both
names normalizing to asser levy). -/
theorem C8_end_to_end :
    processRecord "Asser Levy Playground".toList
        (buildPool [⟨"Asser Levy Park".toList, "Active".toList, [], [], []⟩]) =
      (⟨true, some "Active".toList, some [], some []⟩, MatchPath.fuzzyPath) := by decide

/-! ## Character-level lemmas used for the empty-name and idempotence claims -/

/-- Char.ofNat returns a character of the requested code point whenever
that code point is valid. -/
theorem char_toNat_ofNat (n : Nat) (h : n.isValidChar) : (Char.ofNat n).toNat = n := by
  simp [Char.ofNat, dif_pos h, Char.ofNatAux, Char.toNat, UInt32.toNat, BitVec.toNat_ofNatLt]

/-- Characters at or above code point 48 are not whitespace. -/
theorem isSpace_eq_false_of_ge (c : Char) (h : 48 ≤ c.toNat) : isSpace c = false := by
  unfold isSpace
  simp only [Bool.or_eq_false_iff, decide_eq_false_iff_not]
  omega

/-- Lower-casing does not change whether a character is whitespace. -/
theorem isSpace_lowerChar (c : Char) : isSpace (lowerChar c) = isSpace c := by
  unfold lowerChar
  split_ifs with h
  · have hv : (c.toNat + 32).isValidChar := Or.inl (by omega)
    have ht : (Char.ofNat (c.toNat + 32)).toNat = c.toNat + 32 := char_toNat_ofNat _ hv
    rw [isSpace_eq_false_of_ge _ (by omega), isSpace_eq_false_of_ge _ (by omega)]
  · rfl

/-- Leading-whitespace removal commutes with lower-casing. -/
theorem dropWhile_lower (s : Str) :
    (lower s).dropWhile isSpace = lower (s.dropWhile isSpace) := by
  unfold lower
  rw [List.dropWhile_map]
  rw [show isSpace ∘ lowerChar = isSpace from funext isSpace_lowerChar]

/-- Reversal commutes with lower-casing. -/
theorem reverse_lower (s : Str) : (lower s).reverse = lower s.reverse := by
  unfold lower
  rw [List.map_reverse]

/-- Whitespace trimming commutes with lower-casing. -/
theorem strip_lower (s : Str) : strip (lower s) = lower (strip s) := by
  unfold strip
  rw [dropWhile_lower, reverse_lower, dropWhile_lower, reverse_lower]

/-- A name that trims to nothing normalizes to the empty string. -/
theorem normalize_of_strip_nil (s : Str) (h : strip s = []) : normalize_name s = [] := by
  unfold normalize_name
  split_ifs with hs
  · rfl
  · rw [strip_lower, h]
    decide

/-! ## Claim C9 -/

/-- C9: a primary record whose stripped Name is empty keeps the blank
attributes (match false, the three auxiliary values absent) through the
no-match path, and the core operations degrade to defined values on
such input: its normalized form is empty and it scores 0 against every
name in either argument position. All embedded operations are total
Lean functions, matching the no-exception contract. -/
theorem C9_empty_name_degraded (raw b : Str) (pool : List (Str × SprinklerInfo))
    (h : strip raw = []) :
    processRecord raw pool = (blankEnriched, MatchPath.noMatch) ∧
    normalize_name raw = [] ∧
    similarity_score raw b = 0 ∧ similarity_score b raw = 0 := by
  have hn := normalize_of_strip_nil raw h
  refine ⟨?_, hn, ?_, ?_⟩
  · unfold processRecord
    rw [h]
    rfl
  · simp only [similarity_score, hn]
    rw [if_pos (Or.inl trivial)]
  · simp only [similarity_score, hn]
    rw [if_pos (Or.inr trivial)]

/-- Witness for C9 at a concrete instance: the empty Name yields the
blank enriched record and zero scores against a non-empty pool. -/
theorem C9_witness :
    (strip ([] : Str) = []) ∧
    (processRecord ([] : Str) [("x".toList, ⟨[], [], [], []⟩)] =
        (blankEnriched, MatchPath.noMatch) ∧
      normalize_name ([] : Str) = [] ∧
      similarity_score ([] : Str) "y".toList = 0 ∧
      similarity_score "y".toList ([] : Str) = 0) :=
  ⟨rfl, C9_empty_name_degraded [] "y".toList [("x".toList, ⟨[], [], [], []⟩)] rfl⟩

/-! ## Claim C10 -/

/-- C10: a query with empty normalized form matches, through the exact
pass and with score 1, the first pool candidate whose normalized form
is also empty, even though similarity_score gives 0 to every pair whose
first name normalizes to the empty string. -/
theorem C10_empty_exact_match (q b : Str) (pool : List Str) (t : ℚ)
    (h1 : normalize_name q = [])
    (h2 : pool.any (exactPred q) = true) :
    find_best_match q pool t = (pool.find? (exactPred q), 1) ∧
    (pool.find? (exactPred q)).isSome = true ∧
    similarity_score q b = 0 := by
  have hs : (pool.find? (exactPred q)).isSome = true :=
    List.find?_isSome.mpr (List.any_eq_true.mp h2)
  refine ⟨find_best_match_exact q pool t hs, hs, ?_⟩
  simp only [similarity_score, h1]
  rw [if_pos (Or.inl trivial)]

/-- Witness for C10 at a concrete instance: a punctuation-only query
against a punctuation-only candidate is matched with score 1 while
similarity_score gives it 0 against anything. -/
theorem C10_witness :
    (normalize_name "!!!".toList = [] ∧
      ["...".toList].any (exactPred "!!!".toList) = true) ∧
    find_best_match "!!!".toList ["...".toList] (1/2) =
      (["...".toList].find? (exactPred "!!!".toList), 1) ∧
    (["...".toList].find? (exactPred "!!!".toList)).isSome = true ∧
    similarity_score "!!!".toList "zzz".toList = 0 :=
  ⟨⟨by decide, by decide⟩,
    C10_empty_exact_match "!!!".toList "zzz".toList ["...".toList] (1/2)
      (by decide) (by decide)⟩

/-! ## Claim C7 -/

/-- Coupling invariant between the fuzzy-loop accumulators of the same
query and pool run at a low threshold t1 and a high threshold t2.
Whenever the high-threshold run holds a candidate, the low-threshold
run holds the same candidate at the same score; when the high-threshold
run is still empty, anything the low-threshold run holds scores below
t2. -/
def INV (t1 t2 : ℚ) (a1 a2 : Option Str × ℚ) : Prop :=
  (a1.1 = none → a1.2 = 0) ∧
  (a2.1 = none → a2.2 = 0 ∧ (a1.1 = none ∨ a1.2 < t2)) ∧
  (∀ w, a2.1 = some w → a1.1 = some w ∧ a1.2 = a2.2 ∧ t2 ≤ a2.2) ∧
  (∀ w, a1.1 = some w → t1 ≤ a1.2 ∧ 0 < a1.2)

/-- One step of the fuzzy loop preserves the coupling invariant. -/
theorem fuzzyStep_pres (q c : Str) (t1 t2 : ℚ) (h12 : t1 ≤ t2)
    (a1 a2 : Option Str × ℚ) (h : INV t1 t2 a1 a2) :
    INV t1 t2 (fuzzyStep q t1 a1 c) (fuzzyStep q t2 a2 c) := by
  obtain ⟨i1, i2, i3, i4⟩ := h
  rw [fuzzyStep_eq_ite, fuzzyStep_eq_ite]
  have hpos1 : similarity_score q c > a1.2 → 0 < similarity_score q c := by
    intro hgt
    cases ha1 : a1.1 with
    | none => rw [i1 ha1] at hgt; exact hgt
    | some w => exact lt_trans (i4 w ha1).2 hgt
  split_ifs with h1 h2 h2
  · -- both runs accept the candidate
    obtain ⟨hgt2, hge2, hg⟩ := h2
    have hsc2 : 0 < similarity_score q c := by
      cases ha2 : a2.1 with
      | none => rw [(i2 ha2).1] at hgt2; exact hgt2
      | some w =>
        have hb := i3 w ha2
        exact lt_trans (lt_of_lt_of_le (by rw [← hb.2.1]; exact (i4 w hb.1).2) le_rfl) hgt2
    refine ⟨by simp, by simp, ?_, ?_⟩
    · intro w hw
      exact ⟨hw, rfl, hge2⟩
    · intro w _
      exact ⟨le_trans h12 hge2, hsc2⟩
  · -- only the low-threshold run accepts
    obtain ⟨hgt1, hge1, hg⟩ := h1
    have hnone2 : a2.1 = none := by
      cases ha2 : a2.1 with
      | none => rfl
      | some w =>
        obtain ⟨hb1, hb2, hb3⟩ := i3 w ha2
        exact absurd ⟨by rw [← hb2]; exact hgt1, le_trans hb3 (le_of_lt (by rw [← hb2]; exact hgt1)), hg⟩ h2
    have hz2 := (i2 hnone2).1
    have hlt2 : similarity_score q c < t2 := by
      by_contra hge
      exact h2 ⟨by rw [hz2]; exact hpos1 hgt1, le_of_not_lt hge, hg⟩
    refine ⟨by simp, ?_, ?_, ?_⟩
    · intro hn2
      exact ⟨hz2, Or.inr hlt2⟩
    · intro w hw
      rw [hnone2] at hw
      cases hw
    · intro w _
      exact ⟨hge1, hpos1 hgt1⟩
  · -- only the high-threshold run accepts: impossible
    exfalso
    obtain ⟨hgt2, hge2, hg⟩ := h2
    apply h1
    refine ⟨?_, le_trans h12 hge2, hg⟩
    cases ha2 : a2.1 with
    | none =>
      obtain ⟨hz2, hcase⟩ := i2 ha2
      rw [hz2] at hgt2
      rcases hcase with hn1 | hlt
      · rw [i1 hn1]; exact hgt2
      · exact lt_of_lt_of_le hlt hge2
    | some w =>
      rw [(i3 w ha2).2.1]; exact hgt2
  · -- neither run accepts
    exact ⟨i1, i2, i3, i4⟩

/-- Folding the fuzzy loop over the pool preserves the coupling
invariant. -/
theorem foldl_fuzzy_pres (q : Str) (t1 t2 : ℚ) (h12 : t1 ≤ t2) :
    ∀ (l : List Str) (a1 a2 : Option Str × ℚ), INV t1 t2 a1 a2 →
      INV t1 t2 (l.foldl (fuzzyStep q t1) a1) (l.foldl (fuzzyStep q t2) a2)
  | [], _, _, h => h
  | c :: l, a1, a2, h =>
    foldl_fuzzy_pres q t1 t2 h12 l _ _ (fuzzyStep_pres q c t1 t2 h12 a1 a2 h)

/-- C7: find_best_match is monotone in the threshold. For thresholds
t1 at most t2, a no-match at t1 stays a no-match at t2, and whenever
the run at the higher threshold selects a candidate, the run at the
lower threshold selects that same candidate. -/
theorem C7_threshold_monotone (q : Str) (pool : List Str) (t1 t2 : ℚ) (h : t1 ≤ t2) :
    ((find_best_match q pool t1).1 = none → (find_best_match q pool t2).1 = none) ∧
    ((find_best_match q pool t2).1.isSome = true →
      (find_best_match q pool t1).1 = (find_best_match q pool t2).1) := by
  cases hf : pool.find? (exactPred q) with
  | some s =>
    have e1 : find_best_match q pool t1 = (some s, 1) := by
      unfold find_best_match; rw [hf]
    have e2 : find_best_match q pool t2 = (some s, 1) := by
      unfold find_best_match; rw [hf]
    rw [e1, e2]
    exact ⟨fun hx => hx, fun _ => rfl⟩
  | none =>
    have e1 : find_best_match q pool t1 = pool.foldl (fuzzyStep q t1) (none, 0) := by
      unfold find_best_match; rw [hf]
    have e2 : find_best_match q pool t2 = pool.foldl (fuzzyStep q t2) (none, 0) := by
      unfold find_best_match; rw [hf]
    rw [e1, e2]
    have hini : INV t1 t2 ((none : Option Str), (0 : ℚ)) (none, 0) := by
      refine ⟨fun _ => rfl, fun _ => ⟨rfl, Or.inl rfl⟩, ?_, ?_⟩ <;>
        · intro w hw
          cases hw
    obtain ⟨i1, i2, i3, i4⟩ := foldl_fuzzy_pres q t1 t2 h pool (none, 0) (none, 0) hini
    constructor
    · intro hn
      cases h2 : (pool.foldl (fuzzyStep q t2) (none, 0)).1 with
      | none => rfl
      | some w =>
        rw [(i3 w h2).1] at hn
        cases hn
    · intro hs
      cases h2 : (pool.foldl (fuzzyStep q t2) (none, 0)).1 with
      | none => rw [h2] at hs; cases hs
      | some w => rw [(i3 w h2).1]

/-- Witness for C7 at a concrete instance with thresholds one half and
two thirds. -/
theorem C7_witness :
    ((1:ℚ)/2 ≤ 2/3) ∧
    (((find_best_match "a".toList ["a".toList] (1/2)).1 = none →
        (find_best_match "a".toList ["a".toList] (2/3)).1 = none) ∧
      ((find_best_match "a".toList ["a".toList] (2/3)).1.isSome = true →
        (find_best_match "a".toList ["a".toList] (1/2)).1 =
          (find_best_match "a".toList ["a".toList] (2/3)).1)) :=
  ⟨by norm_num,
    C7_threshold_monotone "a".toList ["a".toList] (1/2) (2/3) (by norm_num)⟩

/-! ## Shape of normalize_name output, for the amended idempotence claim -/

/-- Characters that can appear in the output of normalize_name: the
single space, or a word character that is already lower case. -/
def canonChar (c : Char) : Prop :=
  c = ' ' ∨ (wordChar c = true ∧ isSpace c = false ∧ lowerChar c = c)

/-- Adjacent characters are never both whitespace. -/
def goodPair (a b : Char) : Prop := ¬(isSpace a = true ∧ isSpace b = true)

/-- Lower-casing a character twice is the same as once. -/
theorem lowerChar_idem (c : Char) : lowerChar (lowerChar c) = lowerChar c := by
  by_cases h : 65 ≤ c.toNat ∧ c.toNat ≤ 90
  · have h1 : lowerChar c = Char.ofNat (c.toNat + 32) := by
      unfold lowerChar; rw [if_pos h]
    have ht : (Char.ofNat (c.toNat + 32)).toNat = c.toNat + 32 :=
      char_toNat_ofNat _ (Or.inl (by omega))
    rw [h1]
    unfold lowerChar
    rw [if_neg (by rw [ht]; omega)]
  · have h1 : lowerChar c = c := by unfold lowerChar; rw [if_neg h]
    rw [h1, h1]

/-- Characters of a trimmed string come from the original string. -/
theorem mem_strip {c : Char} {s : Str} (h : c ∈ strip s) : c ∈ s := by
  unfold strip at h
  rw [List.mem_reverse] at h
  have h2 := (List.dropWhile_sublist _).subset h
  rw [List.mem_reverse] at h2
  exact (List.dropWhile_sublist _).subset h2

/-- Characters survive one suffix-stripping step only from the input. -/
theorem mem_stripOne {c : Char} {s suf : Str} (h : c ∈ stripOne s suf) : c ∈ s := by
  unfold stripOne at h
  split_ifs at h with hif
  · exact (List.take_sublist _ _).subset (mem_strip h)
  · exact h

/-- Characters after the whole suffix loop come from the input. -/
theorem mem_stripSuffixes {c : Char} {s : Str} (h : c ∈ stripSuffixes s) : c ∈ s := by
  unfold stripSuffixes at h
  have aux : ∀ (l : List Str) (u : Str), c ∈ l.foldl stripOne u → c ∈ u := by
    intro l
    induction l with
    | nil => intro u h; exact h
    | cons x xs ih => intro u h; exact mem_stripOne (ih (stripOne u x) h)
  exact aux _ _ h

/-- Characters of a lower-cased string are fixed by lower-casing. -/
theorem mem_lower_fix {c : Char} {s : Str} (h : c ∈ lower s) : lowerChar c = c := by
  unfold lower at h
  obtain ⟨a, _, rfl⟩ := List.mem_map.mp h
  exact lowerChar_idem a

/-- Characters after the punctuation stage are whitespace or a word
character drawn from the input. -/
theorem mem_punct {c : Char} {s : Str} (h : c ∈ punctToSpace s) :
    isSpace c = true ∨ (c ∈ s ∧ wordChar c = true) := by
  unfold punctToSpace at h
  obtain ⟨a, ha, rfl⟩ := List.mem_map.mp h
  by_cases hw : (wordChar a || isSpace a) = true
  · rw [if_pos hw]
    by_cases hwa : wordChar a = true
    · exact Or.inr ⟨ha, hwa⟩
    · rw [Bool.eq_false_iff.mpr hwa, Bool.false_or] at hw
      exact Or.inl hw
  · rw [if_neg hw]
    exact Or.inl (by decide)

/-- Characters after whitespace collapsing are the plain space or a
non-whitespace character drawn from the input. -/
theorem mem_collapseAux {c : Char} : ∀ {flag : Bool} {s : Str}, c ∈ collapseWsAux flag s →
    c = ' ' ∨ (c ∈ s ∧ isSpace c = false) := by
  intro flag s
  induction s generalizing flag with
  | nil => intro h; cases h
  | cons a r ih =>
    intro h
    unfold collapseWsAux at h
    split_ifs at h with h1 h2
    · rcases ih h with h3 | h3
      · exact Or.inl h3
      · exact Or.inr ⟨List.mem_cons_of_mem _ h3.1, h3.2⟩
    · rcases List.mem_cons.mp h with h3 | h3
      · exact Or.inl h3
      · rcases ih h3 with h4 | h4
        · exact Or.inl h4
        · exact Or.inr ⟨List.mem_cons_of_mem _ h4.1, h4.2⟩
    · rcases List.mem_cons.mp h with h3 | h3
      · subst h3
        exact Or.inr ⟨List.mem_cons_self _ _, Bool.eq_false_iff.mpr h1⟩
      · rcases ih h3 with h4 | h4
        · exact Or.inl h4
        · exact Or.inr ⟨List.mem_cons_of_mem _ h4.1, h4.2⟩

/-- Every character of the cleanup-stage output of a lower-case-fixed
string is canonical. -/
theorem canon_cleanup {c : Char} {z : Str} (h : c ∈ cleanupStage z)
    (hz : ∀ d ∈ z, lowerChar d = d) : canonChar c := by
  unfold cleanupStage at h
  have h1 := mem_strip h
  rcases mem_collapseAux h1 with h2 | h2
  · exact Or.inl h2
  · rcases mem_punct h2.1 with h3 | h3
    · exact absurd h3 (by simp [h2.2])
    · exact Or.inr ⟨h3.2, h2.2, hz c h3.1⟩

/-- Every character of a normalized name is canonical. -/
theorem canon_normalize {c : Char} {x : Str} (h : c ∈ normalize_name x) : canonChar c := by
  unfold normalize_name at h
  split_ifs at h with hx
  · cases h
  · apply canon_cleanup h
    intro d hd
    exact mem_lower_fix (mem_strip (mem_stripSuffixes hd))

/-- The head of a whitespace-collapse with the flag raised is not
whitespace. -/
theorem head_collapseAux_true {c : Char} : ∀ {s : Str},
    (collapseWsAux true s).head? = some c → isSpace c = false := by
  intro s
  induction s with
  | nil => intro h; cases h
  | cons a r ih =>
    intro h
    unfold collapseWsAux at h
    split_ifs at h with h1 h2
    · exact ih h
    · exact absurd rfl h2
    · rw [List.head?_cons] at h
      cases Option.some.inj h
      exact Bool.eq_false_iff.mpr h1

/-- The whitespace-collapse stage never produces two adjacent
whitespace characters. -/
theorem chain_collapseAux (s : Str) : ∀ flag, List.Chain' goodPair (collapseWsAux flag s) := by
  induction s with
  | nil => intro flag; exact List.chain'_nil
  | cons a r ih =>
    intro flag
    unfold collapseWsAux
    split_ifs with h1 h2
    · exact ih true
    · refine List.chain'_cons'.mpr ⟨?_, ih true⟩
      intro b hb
      have hbf : isSpace b = false := head_collapseAux_true (Option.mem_def.mp hb)
      intro hcon
      rw [hbf] at hcon
      cases hcon.2
    · refine List.chain'_cons'.mpr ⟨?_, ih false⟩
      intro b _
      intro hcon
      exact h1 hcon.1

/-- A suffix of a list reversed is a prefix of the reversed list. -/
theorem rev_pre (u v : Str) (h : u <:+ v) : u.reverse <+: v.reverse := by
  obtain ⟨w, rfl⟩ := h
  exact ⟨w.reverse, by rw [List.reverse_append]⟩

/-- Trimming preserves the absence of adjacent whitespace. -/
theorem chain_strip {s : Str} (h : List.Chain' goodPair s) :
    List.Chain' goodPair (strip s) := by
  unfold strip
  have h1 : List.Chain' goodPair (s.dropWhile isSpace) :=
    h.suffix (List.dropWhile_suffix isSpace)
  have hpre : ((s.dropWhile isSpace).reverse.dropWhile isSpace).reverse <+:
      s.dropWhile isSpace := by
    have h2 := rev_pre _ _ (List.dropWhile_suffix (l := (s.dropWhile isSpace).reverse) isSpace)
    rwa [List.reverse_reverse] at h2
  exact h1.prefix hpre

/-- The head left by dropWhile fails the dropped predicate. -/
theorem hd_dropW {s : Str} {c : Char} (h : (s.dropWhile isSpace).head? = some c) :
    isSpace c = false := by
  induction s with
  | nil => cases h
  | cons a t ih =>
    rw [List.dropWhile_cons] at h
    split_ifs at h with h1
    · exact ih h
    · rw [List.head?_cons] at h
      cases Option.some.inj h
      exact Bool.eq_false_iff.mpr h1

/-- Prefixes share their head with the longer list. -/
theorem pre_head {u v : Str} {c : Char} (h : u <+: v) (hh : u.head? = some c) :
    v.head? = some c := by
  obtain ⟨w, rfl⟩ := h
  cases u with
  | nil => cases hh
  | cons a t => simpa using hh

/-- A trimmed string does not start with whitespace. -/
theorem strip_head {s : Str} {c : Char} (h : (strip s).head? = some c) :
    isSpace c = false := by
  unfold strip at h
  have hpre : ((s.dropWhile isSpace).reverse.dropWhile isSpace).reverse <+:
      s.dropWhile isSpace := by
    have h2 := rev_pre _ _ (List.dropWhile_suffix (l := (s.dropWhile isSpace).reverse) isSpace)
    rwa [List.reverse_reverse] at h2
  exact hd_dropW (pre_head hpre h)

/-- A trimmed string does not end with whitespace. -/
theorem strip_last {s : Str} {c : Char} (h : (strip s).getLast? = some c) :
    isSpace c = false := by
  rw [← List.head?_reverse] at h
  have hrev : (strip s).reverse = (s.dropWhile isSpace).reverse.dropWhile isSpace := by
    unfold strip; rw [List.reverse_reverse]
  rw [hrev] at h
  exact hd_dropW h

/-- dropWhile does nothing when the head already fails the predicate. -/
theorem dropW_fix {s : Str} (h : ∀ c, s.head? = some c → isSpace c = false) :
    s.dropWhile isSpace = s := by
  cases s with
  | nil => rfl
  | cons a t =>
    rw [List.dropWhile_cons, if_neg]
    simp [h a rfl]

/-- Trimming does nothing when neither end is whitespace. -/
theorem strip_fix {s : Str} (hh : ∀ c, s.head? = some c → isSpace c = false)
    (hl : ∀ c, s.getLast? = some c → isSpace c = false) : strip s = s := by
  unfold strip
  rw [dropW_fix hh]
  have h2 : s.reverse.dropWhile isSpace = s.reverse := by
    apply dropW_fix
    intro c hc
    rw [List.head?_reverse] at hc
    exact hl c hc
  rw [h2, List.reverse_reverse]

/-- Trimming is idempotent. -/
theorem strip_idem (s : Str) : strip (strip s) = strip s :=
  strip_fix (fun _ hc => strip_head hc) (fun _ hc => strip_last hc)

/-- Lower-casing fixes strings of canonical characters. -/
theorem lower_fix {s : Str} (h : ∀ c ∈ s, canonChar c) : lower s = s := by
  unfold lower
  have hall : ∀ c ∈ s, lowerChar c = c := by
    intro c hc
    rcases h c hc with h1 | h1
    · rw [h1]; decide
    · exact h1.2.2
  calc s.map lowerChar = s.map id := List.map_congr_left hall
    _ = s := List.map_id s

/-- The suffix loop does nothing when no listed suffix ends the
string. -/
theorem stripSuffixes_fix {s : Str} (h : ∀ suf ∈ suffixes_to_remove, ¬ suf <:+ s) :
    stripSuffixes s = s := by
  unfold stripSuffixes
  have aux : ∀ (l : List Str), (∀ suf ∈ l, ¬ suf <:+ s) → l.foldl stripOne s = s := by
    intro l
    induction l with
    | nil => intro _; rfl
    | cons x xs ih =>
      intro hx
      have h1 : stripOne s x = s := by
        unfold stripOne; rw [if_neg (hx x (List.mem_cons_self _ _))]
      rw [List.foldl_cons, h1]
      exact ih (fun suf hs => hx suf (List.mem_cons_of_mem _ hs))
  exact aux _ h

/-- The punctuation stage fixes strings of canonical characters. -/
theorem punct_fix {s : Str} (h : ∀ c ∈ s, canonChar c) : punctToSpace s = s := by
  unfold punctToSpace
  have hall : ∀ c ∈ s, (if wordChar c || isSpace c then c else ' ') = c := by
    intro c hc
    rcases h c hc with h1 | h1
    · rw [h1]
      decide
    · rw [if_pos (by simp [h1.1])]
  calc s.map _ = s.map id := List.map_congr_left hall
    _ = s := List.map_id s

/-- Whitespace collapsing fixes strings of canonical characters with
no adjacent whitespace. -/
theorem collapse_fix {s : Str} (hc : ∀ c ∈ s, canonChar c)
    (hchain : List.Chain' goodPair s) : collapseWs s = s := by
  have aux : ∀ (t : Str), (∀ c ∈ t, canonChar c) → List.Chain' goodPair t →
      collapseWsAux false t = t ∧
        ((∀ c, t.head? = some c → isSpace c = false) → collapseWsAux true t = t) := by
    intro t
    induction t with
    | nil => intro _ _; exact ⟨rfl, fun _ => rfl⟩
    | cons a r ih =>
      intro hcan hch
      have hcr : ∀ c ∈ r, canonChar c := fun c h => hcan c (List.mem_cons_of_mem _ h)
      obtain ⟨hR, hchr⟩ := List.chain'_cons'.mp hch
      obtain ⟨ihf, iht⟩ := ih hcr hchr
      have hihtrue : isSpace a = true → collapseWsAux true r = r := by
        intro ha
        apply iht
        intro c hcr2
        by_cases hcs : isSpace c = true
        · exact absurd ⟨ha, hcs⟩ (hR c (Option.mem_def.mpr hcr2))
        · exact Bool.eq_false_iff.mpr hcs
      constructor
      · unfold collapseWsAux
        by_cases ha : isSpace a = true
        · rw [if_pos ha]
          have ha2 : a = ' ' := by
            rcases hcan a (List.mem_cons_self _ _) with h1 | h1
            · exact h1
            · rw [h1.2.1] at ha; cases ha
          rw [hihtrue ha, ha2]
          rfl
        · rw [if_neg ha, ihf]
      · intro hhead
        have ha : isSpace a = false := hhead a rfl
        unfold collapseWsAux
        rw [if_neg (by simp [ha]), ihf]
  exact (aux s hc hchain).1

/-- A normalized name does not start with whitespace. -/
theorem normalize_head {x : Str} {c : Char} (h : (normalize_name x).head? = some c) :
    isSpace c = false := by
  unfold normalize_name at h
  split_ifs at h with h1
  · cases h
  · unfold cleanupStage at h
    exact strip_head h

/-- A normalized name does not end with whitespace. -/
theorem normalize_last {x : Str} {c : Char} (h : (normalize_name x).getLast? = some c) :
    isSpace c = false := by
  unfold normalize_name at h
  split_ifs at h with h1
  · cases h
  · unfold cleanupStage at h
    exact strip_last h

/-- The whitespace-collapse never yields adjacent whitespace. -/
theorem chain_collapseWs (s : Str) : List.Chain' goodPair (collapseWs s) := by
  unfold collapseWs
  exact chain_collapseAux s false

/-- The cleanup stage never yields adjacent whitespace. -/
theorem chain_cleanup (z : Str) : List.Chain' goodPair (cleanupStage z) := by
  unfold cleanupStage
  apply chain_strip
  apply chain_collapseWs

/-- A normalized name has no adjacent whitespace characters. -/
theorem chain_normalize (x : Str) : List.Chain' goodPair (normalize_name x) := by
  by_cases h1 : x = []
  · subst h1
    exact List.chain'_nil
  · have e : normalize_name x = cleanupStage (stripSuffixes (strip (lower x))) := by
      unfold normalize_name
      rw [if_neg h1]
    rw [e]
    generalize stripSuffixes (strip (lower x)) = z
    exact chain_cleanup z

/-! ## Length bounds on the normalization stages, for the amended
idempotence claim: a firing suffix entry strictly shortens the string,
and no later stage can lengthen it again. -/

/-- Trimming never lengthens a string. -/
theorem length_strip_le (s : Str) : (strip s).length ≤ s.length := by
  unfold strip
  calc ((s.dropWhile isSpace).reverse.dropWhile isSpace).reverse.length
      = ((s.dropWhile isSpace).reverse.dropWhile isSpace).length :=
        List.length_reverse _
    _ ≤ (s.dropWhile isSpace).reverse.length :=
        (List.dropWhile_suffix isSpace).length_le
    _ = (s.dropWhile isSpace).length := List.length_reverse _
    _ ≤ s.length := (List.dropWhile_suffix isSpace).length_le

/-- One suffix-stripping step never lengthens a string. -/
theorem length_stripOne_le (s suf : Str) : (stripOne s suf).length ≤ s.length := by
  unfold stripOne
  split_ifs with h
  · calc (strip (s.take (s.length - suf.length))).length
        ≤ (s.take (s.length - suf.length)).length := length_strip_le _
      _ ≤ s.length := by rw [List.length_take]; omega
  · exact le_rfl

/-- A suffix-stripping step that fires on a non-empty suffix strictly
shortens the string. -/
theorem length_stripOne_lt {s suf : Str} (h : suf <:+ s) (hn : suf ≠ []) :
    (stripOne s suf).length < s.length := by
  unfold stripOne
  rw [if_pos h]
  have hsl : suf.length ≤ s.length := h.length_le
  have h1 : 0 < suf.length := List.length_pos.mpr hn
  calc (strip (s.take (s.length - suf.length))).length
      ≤ (s.take (s.length - suf.length)).length := length_strip_le _
    _ = s.length - suf.length := by rw [List.length_take]; omega
    _ < s.length := by omega

/-- The whole suffix loop never lengthens a string. -/
theorem length_foldl_stripOne_le (l : List Str) : ∀ (s : Str),
    (l.foldl stripOne s).length ≤ s.length := by
  induction l with
  | nil => intro s; exact le_rfl
  | cons a t ih =>
    intro s
    rw [List.foldl_cons]
    exact le_trans (ih (stripOne s a)) (length_stripOne_le s a)

/-- The suffix loop strictly shortens any string that ends with one of
its non-empty entries. -/
theorem length_foldl_stripOne_lt : ∀ (l : List Str) (s : Str),
    (∀ suf ∈ l, suf ≠ []) → (∃ suf ∈ l, suf <:+ s) →
    (l.foldl stripOne s).length < s.length
  | [], s, _, hs => by
    obtain ⟨suf, hm, _⟩ := hs
    cases hm
  | a :: t, s, hne, hs => by
    rw [List.foldl_cons]
    by_cases hfire : a <:+ s
    · exact lt_of_le_of_lt (length_foldl_stripOne_le t _)
        (length_stripOne_lt hfire (hne a (List.mem_cons_self _ _)))
    · have heq : stripOne s a = s := by
        unfold stripOne; rw [if_neg hfire]
      rw [heq]
      obtain ⟨suf, hm, hsuf⟩ := hs
      rcases List.mem_cons.mp hm with h0 | hm2
      · exact absurd (h0 ▸ hsuf) hfire
      · exact length_foldl_stripOne_lt t s
          (fun u hu => hne u (List.mem_cons_of_mem _ hu)) ⟨suf, hm2, hsuf⟩

/-- stripSuffixes strictly shortens any string ending with a listed
suffix. -/
theorem length_stripSuffixes_lt {s : Str}
    (hs : ∃ suf ∈ suffixes_to_remove, suf <:+ s) :
    (stripSuffixes s).length < s.length := by
  unfold stripSuffixes
  exact length_foldl_stripOne_lt _ s (by decide) hs

/-- Whitespace collapsing never lengthens a string. -/
theorem length_collapseAux_le (s : Str) : ∀ (flag : Bool),
    (collapseWsAux flag s).length ≤ s.length := by
  induction s with
  | nil => intro flag; exact le_rfl
  | cons a r ih =>
    intro flag
    unfold collapseWsAux
    split_ifs with h1 h2
    · exact le_trans (ih true) (Nat.le_succ _)
    · simp only [List.length_cons]
      exact Nat.succ_le_succ (ih true)
    · simp only [List.length_cons]
      exact Nat.succ_le_succ (ih false)

/-- The cleanup stage never lengthens a string. -/
theorem length_cleanup_le (z : Str) : (cleanupStage z).length ≤ z.length := by
  unfold cleanupStage
  calc (strip (collapseWs (punctToSpace z))).length
      ≤ (collapseWs (punctToSpace z)).length := length_strip_le _
    _ ≤ (punctToSpace z).length := by
        unfold collapseWs
        exact length_collapseAux_le _ false
    _ = z.length := by
        unfold punctToSpace
        exact List.length_map _ _

/-! ## Claim C4, amended part -/

/-- C4 amended: normalize_name is idempotent at an input exactly when
its normalized form ends with none of the seven listed suffixes. If no
suffix ends it, every stage of a second pass fixes it; if some listed
suffix ends it, the suffix loop of a second pass fires and strictly
shortens it, so idempotence fails, as at the counterexample input,
where a suffix is re-exposed by the punctuation stage of the first
pass. -/
theorem C4_amended (x : Str) :
    normalize_name (normalize_name x) = normalize_name x ↔
      ∀ suf ∈ suffixes_to_remove, ¬ suf <:+ normalize_name x := by
  have hcanon : ∀ c ∈ normalize_name x, canonChar c := fun _ hc => canon_normalize hc
  have hhead : ∀ c, (normalize_name x).head? = some c → isSpace c = false :=
    fun _ hc => normalize_head hc
  have hlast : ∀ c, (normalize_name x).getLast? = some c → isSpace c = false :=
    fun _ hc => normalize_last hc
  have hchain := chain_normalize x
  constructor
  · intro hidem
    by_contra hnot
    push_neg at hnot
    obtain ⟨suf, hmem, hsuf⟩ := hnot
    generalize hy : normalize_name x = y at hidem hsuf hcanon hhead hlast
    have hne : y ≠ [] := by
      intro h0
      rw [h0] at hsuf
      have h1 : suf = [] := List.suffix_nil.mp hsuf
      have h2 : ∀ u ∈ suffixes_to_remove, u ≠ [] := by decide
      exact h2 suf hmem h1
    have heq : normalize_name y = cleanupStage (stripSuffixes y) := by
      unfold normalize_name
      rw [if_neg hne, lower_fix hcanon, strip_fix hhead hlast]
    rw [heq] at hidem
    have hlen1 : (stripSuffixes y).length < y.length :=
      length_stripSuffixes_lt ⟨suf, hmem, hsuf⟩
    have hlen2 : (cleanupStage (stripSuffixes y)).length ≤ (stripSuffixes y).length :=
      length_cleanup_le _
    have hL := congrArg List.length hidem
    have hlt := lt_of_le_of_lt hlen2 hlen1
    rw [hL] at hlt
    exact absurd hlt (lt_irrefl _)
  · intro h
    by_cases hnil : normalize_name x = []
    · rw [hnil]
      rfl
    · generalize hy : normalize_name x = y at h hcanon hhead hlast hchain hnil ⊢
      unfold normalize_name
      rw [if_neg hnil, lower_fix hcanon, strip_fix hhead hlast, stripSuffixes_fix h]
      unfold cleanupStage
      rw [punct_fix hcanon, collapse_fix hcanon hchain, strip_fix hhead hlast]

/-- Witness for the amended C4 at concrete instances: the normalized
form fort greene east ends with no listed suffix, so a second pass
fixes it; the normalized form of the C4 counterexample input ends with
the playground suffix, so a second pass changes it. -/
theorem C4_amended_witness :
    ((∀ suf ∈ suffixes_to_remove, ¬ suf <:+ normalize_name "Fort Greene East".toList) ∧
      normalize_name (normalize_name "Fort Greene East".toList) =
        normalize_name "Fort Greene East".toList) ∧
    (normalize_name (normalize_name "a-playground".toList) ≠
        normalize_name "a-playground".toList ∧
      ¬ ∀ suf ∈ suffixes_to_remove, ¬ suf <:+ normalize_name "a-playground".toList) :=
  ⟨⟨by decide, (C4_amended _).mpr (by decide)⟩,
    ⟨fun hc => (by decide : ¬ ∀ suf ∈ suffixes_to_remove,
        ¬ suf <:+ normalize_name "a-playground".toList) ((C4_amended _).mp hc),
      by decide⟩⟩

/-! ## Claim C5, amended part -/

/-- C5 amended: each entry of the suffix list strips at most one
trailing occurrence of itself, a doubled suffix losing exactly one
copy; but the loop walks the whole ordered list, so one call to
normalize_name can strip several different suffixes, as on
x park plgd, which loses plgd and then park. -/
theorem C5_amended :
    (∀ s suf : Str, stripOne ((s ++ suf) ++ suf) suf = strip (s ++ suf)) ∧
    normalize_name "x park plgd".toList = "x".toList := by
  refine ⟨?_, by decide⟩
  intro s suf
  unfold stripOne
  rw [if_pos ⟨s ++ suf, rfl⟩]
  have hl : ((s ++ suf) ++ suf).length - suf.length = (s ++ suf).length := by
    simp only [List.length_append]
    omega
  rw [hl, List.take_left' rfl]

end MergeSprinkler
